import Mathlib

/-!
# Verification of the crokinole round-robin scheduler

Shallow embedding of `src/scheduler.js` (round-robin pairer, global schedule
builder) and of the board-rebalancing layer and games-played aggregation of
the application component (`rebalanceBoards`, `totals`).

Players are identified by strings; machine numbers that the program coerces
(`Math.max(1, Number(x) || 1)`) are modelled as `Option Int` inputs where
`none` stands for a non-numeric value (whose `Number` coercion is `NaN`).
Round, board and game counters never go negative in the source, so they are
modelled with `Nat`.
-/

/-- A scheduled match, `{round, board, A, B, group}` in `scheduler.js`. -/
structure SMatch where
  round : Nat
  board : Nat
  A : String
  B : String
  group : Nat
deriving DecidableEq, Repr

/-- An entry of the candidate-match universe `allMatches`: `{A, B, group}`. -/
structure Cand where
  A : String
  B : String
  group : Nat
deriving DecidableEq, Repr

/-- Mutable state of one `tryBuild` attempt: `gamesPlayed`, `pairPlayed`
(the JS `Set` of canonical pair keys, modelled by a list with membership),
and `lastPlayedRound`. -/
structure BuildSt where
  gp : String → Nat
  pp : List String
  lp : String → Nat

/-- State of the inner greedy selection loop of a round: `usedThisRound`,
the round accumulated so far, and the build state. -/
structure SelSt where
  used : List String
  acc : List SMatch
  st : BuildSt

/-- `Number(x) || 1`: a non-numeric input (`NaN`) and `0` both yield `1`. -/
def jsNumOr1 (x : Option Int) : Int :=
  match x with
  | none => 1
  | some n => if n = 0 then 1 else n

/-- `Math.max(1, Number(x) || 1)`, as used for board, round and group counts. -/
def coerceMin1 (x : Option Int) : Nat :=
  (max 1 (jsNumOr1 x)).toNat

/-- `Math.max(0, Number(n) || 0)` then `P1..Pn`: `buildPlayers` of `scheduler.js`. -/
def buildPlayers (n : Option Int) : List String :=
  let m := (max 0 (match n with | none => 0 | some k => k)).toNat
  (List.range m).map (fun i => "P" ++ toString (i + 1))

/-- `splitIntoGroups`: distribute players round-robin into `max(1, g)` groups. -/
def splitIntoGroups (players : List String) (numGroups : Option Int) : List (List String) :=
  let g := coerceMin1 numGroups
  (List.range g).map (fun k => (players.enum.filter (fun ip => ip.1 % g = k)).map Prod.snd)

/-- The synthetic bye placeholder `'__BYE__'` of `roundRobinPairs`. -/
def byeTag : String := "__BYE__"

/-- One iteration body of the `for (r = 0; r < n - 1; r++)` loop of
`roundRobinPairs`: emit the non-bye pairs `a[i]`/`b[i]`, then recompute
`a`/`b` exactly as the source does (`fixed`/`rest`/`newA`/`newB`). -/
def rrRounds (half : Nat) : Nat → List String → List String → List (List (String × String))
  | 0, _, _ => []
  | k + 1, a, b =>
    let pairs := (List.zip a b).filterMap
      (fun pq => if pq.1 ≠ byeTag ∧ pq.2 ≠ byeTag then some (pq.1, pq.2) else none)
    let fixed := a.headD ""
    let rest := a.tail ++ b.take 1
    let newA := fixed :: rest.take (half - 1)
    let newB := (rest.drop (half - 1) ++ b.tail).reverse
    pairs :: rrRounds half k newA newB

/-- `roundRobinPairs` of `scheduler.js`. -/
def roundRobinPairs (group : List String) : List (List (String × String)) :=
  let arr := if group.length % 2 = 1 then group ++ [byeTag] else group
  let n := arr.length
  let half := n / 2
  rrRounds half (n - 1) (arr.take half) ((arr.drop half).reverse)

/-- `buildGroupPairings`. -/
def buildGroupPairings (groups : List (List String)) : List (List (List (String × String))) :=
  groups.map roundRobinPairs

/-- JS `Set` insertion order: keep the first occurrence of each element. -/
def dedupFirstAux (seen : List String) : List String → List String
  | [] => []
  | x :: xs => if x ∈ seen then dedupFirstAux seen xs else x :: dedupFirstAux (x :: seen) xs

/-- `Array.from(new Set(list))`. -/
def dedupFirst (l : List String) : List String := dedupFirstAux [] l

/-- The player set of one group, recovered from its pairing rounds in
insertion order (`gr.forEach(r => r.forEach(([A,B]) => {s.add(A); s.add(B)}))`). -/
def groupPlayersOf (gr : List (List (String × String))) : List String :=
  dedupFirst (gr.flatMap (fun round => round.flatMap (fun pr => [pr.1, pr.2])))

/-- All `i < j` pairs of a list, in the order the nested JS loops emit them. -/
def pairsOf : List String → List (String × String)
  | [] => []
  | x :: xs => (xs.map (fun y => (x, y))) ++ pairsOf xs

/-- The canonical unordered pair key `` `${A}|${B}` `` with the two names in
JS string order. -/
def pairKey (a b : String) : String :=
  if a < b then a ++ "|" ++ b else b ++ "|" ++ a

/-- `hadByePrev` inside `tryBuild`. -/
def hadByePrev (lp : String → Nat) (r : Nat) (p : String) : Bool :=
  if r = 1 then false else lp p ≠ r - 1

/-- The primary sort key: how many of the match's players sat out the
previous round. -/
def candByeScore (lp : String → Nat) (r : Nat) (m : Cand) : Nat :=
  (if hadByePrev lp r m.A then 1 else 0) + (if hadByePrev lp r m.B then 1 else 0)

/-- The secondary sort key: combined remaining need. -/
def candNeed (gp : String → Nat) (t : Nat) (m : Cand) : Int :=
  ((t : Int) - gp m.A) + ((t : Int) - gp m.B)

/-- The tertiary sort key: maximum single-player remaining need. -/
def candMaxNeed (gp : String → Nat) (t : Nat) (m : Cand) : Int :=
  max ((t : Int) - gp m.A) ((t : Int) - gp m.B)

/-- The JS comparator passed to `candidates.sort`: byeScore descending, then
combined need descending, then max need descending. -/
def cmpCand (st : BuildSt) (r t : Nat) (m1 m2 : Cand) : Int :=
  let b1 := candByeScore st.lp r m1
  let b2 := candByeScore st.lp r m2
  if b2 ≠ b1 then (b2 : Int) - (b1 : Int)
  else
    let d1 := candNeed st.gp t m1
    let d2 := candNeed st.gp t m2
    if d2 ≠ d1 then d2 - d1
    else candMaxNeed st.gp t m2 - candMaxNeed st.gp t m1

/-- Comparator lifted to index-tagged candidates: ECMAScript `sort` is
stable, so its output is the unique order by comparator value with ties in
original position order. -/
def candLE (st : BuildSt) (r t : Nat) (a b : Nat × Cand) : Bool :=
  if cmpCand st r t a.2 b.2 < 0 then true
  else if cmpCand st r t a.2 b.2 = 0 then decide (a.1 ≤ b.1)
  else false

/-- The lifted comparator as a relation (for the sorting algorithm). -/
def candRel (st : BuildSt) (r t : Nat) (a b : Nat × Cand) : Prop :=
  candLE st r t a b = true

instance (st : BuildSt) (r t : Nat) : DecidableRel (candRel st r t) :=
  fun _ _ => by unfold candRel; infer_instance

/-- `candidates.sort(comparator)`: ECMAScript `sort` is stable, and a stable
sort by a consistent comparator has a unique output — ordered by comparator
value, ties in original position order — so sorting the index-tagged list by
the total order comparator-then-index computes exactly it. -/
def sortCandidates (st : BuildSt) (r t : Nat) (cands : List Cand) : List Cand :=
  (List.insertionSort (candRel st r t) cands.enum).map Prod.snd

/-- The candidate filter at the start of each round of `tryBuild`: the pair
is unplayed and neither player has reached the target. -/
def filterPred (st : BuildSt) (t : Nat) (m : Cand) : Bool :=
  !(st.pp.contains (pairKey m.A m.B)) && decide (st.gp m.A < t) && decide (st.gp m.B < t)

/-- `gamesPlayed[x]++`. -/
def bump (f : String → Nat) (x : String) : String → Nat :=
  fun p => if p = x then f p + 1 else f p

/-- `lastPlayedRound[x] = r`. -/
def setLP (f : String → Nat) (x : String) (r : Nat) : String → Nat :=
  fun p => if p = x then r else f p

/-- Committing one selected candidate inside the greedy loop: push the match
with the 1-based board number, mark both players used, bump `gamesPlayed`,
update `lastPlayedRound`, add the pair key. -/
def commitCand (r : Nat) (m : Cand) (s : SelSt) : SelSt :=
  { used := m.A :: m.B :: s.used
    acc := s.acc ++ [{ round := r, board := s.acc.length + 1, A := m.A, B := m.B, group := m.group }]
    st :=
      { gp := bump (bump s.st.gp m.A) m.B
        pp := s.st.pp ++ [pairKey m.A m.B]
        lp := setLP (setLP s.st.lp m.A r) m.B r } }

/-- The greedy selection loop `for (const m of candidates)` of `tryBuild`:
stop at `boards` matches, skip matches with a player already used this
round, otherwise commit. -/
def selectLoop (boards r : Nat) : List Cand → SelSt → SelSt
  | [], s => s
  | m :: rest, s =>
    if boards ≤ s.acc.length then s
    else if s.used.contains m.A || s.used.contains m.B then selectLoop boards r rest s
    else selectLoop boards r rest (commitCand r m s)

/-- The per-round body of `tryBuild`, iterated over the round numbers
`1..totalRounds`: filter, sort, greedily select, thread the state. -/
def roundsLoop (allMatches : List Cand) (boards t : Nat) :
    List Nat → BuildSt → List (List SMatch) × BuildSt
  | [], st => ([], st)
  | r :: rs, st =>
    let cands := sortCandidates st r t (allMatches.filter (filterPred st t))
    let sel := selectLoop boards r cands ⟨[], [], st⟩
    let rec' := roundsLoop allMatches boards t rs sel.st
    (sel.acc :: rec'.1, rec'.2)

/-- Smallest element of a list of naturals (`Math.min(...)`; the empty case
is handled separately by the caller, mirroring the JS `Infinity` result). -/
def natMinList : List Nat → Nat
  | [] => 0
  | [x] => x
  | x :: y :: xs => min x (natMinList (y :: xs))

/-- Largest element of a list of naturals (`Math.max(...)`). -/
def natMaxList : List Nat → Nat
  | [] => 0
  | [x] => x
  | x :: y :: xs => max x (natMaxList (y :: xs))

/-- The `equal` success check of `tryBuild`:
`mn === mx && mx === targetGames`.  On an empty player list the JS spreads
give `Math.min() = Infinity` and `Math.max() = -Infinity`, so the first
equality is false; this is the `[]` case below. -/
def tryEqual (counts : List Nat) (t : Nat) : Bool :=
  match counts with
  | [] => false
  | c :: cs =>
    decide (natMinList (c :: cs) = natMaxList (c :: cs)) && decide (natMaxList (c :: cs) = t)

/-- Static context of one `buildGlobalSchedule` call. -/
structure BuildCtx where
  allPlayers : List String
  allMatches : List Cand
  boards : Nat
  totalRounds : Nat

/-- `tryBuild(targetGames)`: run all rounds from fresh state and report the
schedule and the `equal` flag. -/
def tryBuild (ctx : BuildCtx) (t : Nat) : List (List SMatch) × Bool :=
  let out := roundsLoop ctx.allMatches ctx.boards t (List.range' 1 ctx.totalRounds)
    ⟨fun _ => 0, [], fun _ => 0⟩
  (out.1, tryEqual (ctx.allPlayers.map out.2.gp) t)

/-- The feasibility search `while (target >= 0) {...}`: try the target,
return the first success, else decrement; at `0` fall back. -/
def buildSearch (f : Nat → List (List SMatch) × Bool) (fb : List (List SMatch)) :
    Nat → List (List SMatch)
  | 0 => if (f 0).2 then (f 0).1 else fb
  | t + 1 => if (f (t + 1)).2 then (f (t + 1)).1 else buildSearch f fb t

/-- The per-group player lists recovered by `buildGlobalSchedule` from its
`groupRounds` argument. -/
def groupsOf (groupRounds : List (List (List (String × String)))) : List (List String) :=
  groupRounds.map groupPlayersOf

/-- `allPlayers = Array.from(new Set(groups.flat()))`. -/
def allPlayersOf (groupRounds : List (List (List (String × String)))) : List String :=
  dedupFirst (groupsOf groupRounds).flatten

/-- The candidate universe `allMatches`: every `i < j` pair within each
group, tagged with the 1-based group index. -/
def allMatchesOf (groupRounds : List (List (List (String × String)))) : List Cand :=
  (groupsOf groupRounds).enum.flatMap
    (fun g => (pairsOf g.2).map (fun pr => { A := pr.1, B := pr.2, group := g.1 + 1 }))

/-- `N = allPlayers.length || 1`. -/
def playerDenom (groupRounds : List (List (List (String × String)))) : Nat :=
  if (allPlayersOf groupRounds).length = 0 then 1 else (allPlayersOf groupRounds).length

/-- `capByBoards = floor(boards * totalRounds * 2 / N)`. -/
def capByBoards (groupRounds : List (List (List (String × String))))
    (boards rounds : Option Int) : Nat :=
  coerceMin1 boards * coerceMin1 rounds * 2 / playerDenom groupRounds

/-- `capByRounds = totalRounds`. -/
def capByRounds (rounds : Option Int) : Nat := coerceMin1 rounds

/-- `capByOpponents`: smallest `max(0, groupSize - 1)` over the groups, `0`
when there are no groups. -/
def capByOpponents (groupRounds : List (List (List (String × String)))) : Nat :=
  if groupsOf groupRounds = [] then 0
  else natMinList ((groupsOf groupRounds).map (fun g => g.length - 1))

/-- The starting target `Math.max(0, Math.min(capByBoards, capByRounds,
capByOpponents))` (the minimum is already a natural number). -/
def initialTarget (groupRounds : List (List (List (String × String))))
    (boards rounds : Option Int) : Nat :=
  min (capByBoards groupRounds boards rounds)
    (min (capByRounds rounds) (capByOpponents groupRounds))

/-- The static context assembled at the top of `buildGlobalSchedule`. -/
def buildCtx (groupRounds : List (List (List (String × String))))
    (boards rounds : Option Int) : BuildCtx :=
  { allPlayers := allPlayersOf groupRounds
    allMatches := allMatchesOf groupRounds
    boards := coerceMin1 boards
    totalRounds := coerceMin1 rounds }

/-- One feasibility attempt of `buildGlobalSchedule` at a given target. -/
def tryBuildAt (groupRounds : List (List (List (String × String))))
    (boards rounds : Option Int) (t : Nat) : List (List SMatch) × Bool :=
  tryBuild (buildCtx groupRounds boards rounds) t

/-- The all-empty fallback `Array.from({length: totalRounds}, () => [])`. -/
def fallbackSchedule (rounds : Option Int) : List (List SMatch) :=
  List.replicate (coerceMin1 rounds) []

/-- `buildGlobalSchedule` of `scheduler.js`. -/
def buildGlobalSchedule (groupRounds : List (List (List (String × String))))
    (boards rounds : Option Int) : List (List SMatch) :=
  buildSearch (tryBuildAt groupRounds boards rounds) (fallbackSchedule rounds)
    (initialTarget groupRounds boards rounds)

/-- Number of matches of a list in which a player appears (as either side). -/
def appearCount (p : String) (l : List SMatch) : Nat :=
  l.countP (fun m => m.A = p ∨ m.B = p)

/-- Two matches pair the same unordered players. -/
def samePair (m1 m2 : SMatch) : Prop :=
  (m1.A = m2.A ∧ m1.B = m2.B) ∨ (m1.A = m2.B ∧ m1.B = m2.A)

instance : DecidablePred (fun mm : SMatch × SMatch => samePair mm.1 mm.2) :=
  fun _ => by unfold samePair; infer_instance

instance (m1 m2 : SMatch) : Decidable (samePair m1 m2) := by
  unfold samePair; infer_instance

/-- Two matches share no player. -/
def disjointPlayers (m1 m2 : SMatch) : Prop :=
  m1.A ≠ m2.A ∧ m1.A ≠ m2.B ∧ m1.B ≠ m2.A ∧ m1.B ≠ m2.B

/-- The boards of a match list are `k+1, k+2, ...` in order. -/
def boardsFrom : Nat → List SMatch → Prop
  | _, [] => True
  | k, m :: rest => m.board = k + 1 ∧ boardsFrom (k + 1) rest

/-- `conflictForMatch` of `rebalanceBoards`: one point per player whose
recorded last board equals the match's current board (`lastBoard[p] === m.board`;
an absent entry never matches). -/
def conflictForMatch (lb : String → Option Nat) (m : SMatch) : Nat :=
  (if lb m.A = some m.board then 1 else 0) + (if lb m.B = some m.board then 1 else 0)

/-- Sum of conflict scores over a round, against a fixed last-board map. -/
def confSum (lb : String → Option Nat) (ms : List SMatch) : Nat :=
  (ms.map (conflictForMatch lb)).sum

/-- The inner `for (j = i+1; ...)` loop of the rebalancer, pairing the
current match `m` against each later match in turn: tentatively swap the two
board numbers, keep the swap exactly when the combined conflict strictly
drops, and thread the (possibly updated) `m` onward.  Returns the final
`m`, the updated tail, and whether any swap was kept. -/
def innerSwaps (lb : String → Option Nat) (m : SMatch) :
    List SMatch → SMatch × List SMatch × Bool
  | [] => (m, [], false)
  | n :: rest =>
    let before := conflictForMatch lb m + conflictForMatch lb n
    let m2 := { m with board := n.board }
    let n2 := { n with board := m.board }
    let after := conflictForMatch lb m2 + conflictForMatch lb n2
    if after < before then
      let r := innerSwaps lb m2 rest
      (r.1, n2 :: r.2.1, true)
    else
      let r := innerSwaps lb m rest
      (r.1, n :: r.2.1, r.2.2)

/-- The outer `for (i = 0; ...)` loop, with an explicit step counter (one
step per outer index; the inner loop only relabels boards, so the updated
tail has the tail's length and the counter never runs out). -/
def onePassAux (lb : String → Option Nat) : Nat → List SMatch → List SMatch × Bool
  | 0, ms => (ms, false)
  | _ + 1, [] => ([], false)
  | k + 1, m :: rest =>
    let r1 := innerSwaps lb m rest
    let r2 := onePassAux lb k r1.2.1
    (r1.1 :: r2.1, r1.2.2 || r2.2)

/-- One full pass of pairwise swaps over a round. -/
def onePass (lb : String → Option Nat) (ms : List SMatch) : List SMatch × Bool :=
  onePassAux lb ms.length ms

/-- The `while (improved && guard < 10)` loop: at most `fuel` passes,
stopping early after a pass with no kept swap. -/
def climb (lb : String → Option Nat) : Nat → List SMatch → List SMatch
  | 0, ms => ms
  | fuel + 1, ms =>
    let r := onePass lb ms
    if r.2 then climb lb fuel r.1 else r.1

/-- Finalizing a round: `lastBoard[m.A] = m.board; lastBoard[m.B] = m.board`
for each match in order. -/
def updateLB (lb : String → Option Nat) : List SMatch → String → Option Nat
  | [] => lb
  | m :: rest =>
    updateLB (fun p => if p = m.B then some m.board else if p = m.A then some m.board else lb p) rest

/-- The per-round recursion of `rebalanceBoards`, threading `lastBoard`. -/
def rebalanceRounds (lb : String → Option Nat) : List (List SMatch) → List (List SMatch)
  | [] => []
  | round :: rest =>
    let round' := climb lb 10 round
    round' :: rebalanceRounds (updateLB lb round') rest

/-- `rebalanceBoards` of the application component (`lastBoard` starts empty). -/
def rebalanceBoards (schedule : List (List SMatch)) : List (List SMatch) :=
  rebalanceRounds (fun _ => none) schedule

/-- The games-played aggregation (`totals`): the per-player count of rounds
in which the player appears in some match, defined for exactly the players
handed in (a JS object keyed by the player list). -/
def computeGamesPlayed (players : List String) (schedule : List (List SMatch)) :
    String → Option Nat :=
  fun p =>
    if p ∈ players then
      some (schedule.countP (fun round => round.any (fun m => m.A = p || m.B = p)))
    else none

/-- A match's non-board fields, used to state that the rebalancer only
relabels boards. -/
def matchMask (m : SMatch) : Nat × String × String × Nat :=
  (m.round, m.A, m.B, m.group)

/-- Modelled from the spec: the board a player used in the immediately
preceding round (`LastBoardByPlayer` as §3 of the design defines it), looked
up in that round's match list.  This is the baseline of the total conflict
score of claim C6. -/
def prevRoundBoard (prev : List SMatch) (p : String) : Option Nat :=
  (prev.find? (fun m => m.A = p || m.B = p)).map SMatch.board

/-- Modelled from the spec: conflict of one round against the immediately
preceding round. -/
def specConflictRound (prev cur : List SMatch) : Nat :=
  (cur.map (fun m =>
    (if prevRoundBoard prev m.A = some m.board then 1 else 0) +
    (if prevRoundBoard prev m.B = some m.board then 1 else 0))).sum

/-- Helper for `totalConflictScoreSpec`: fold the rounds, each scored
against its predecessor. -/
def totalConflictAux (prev : List SMatch) : List (List SMatch) → Nat
  | [] => 0
  | r :: rs => specConflictRound prev r + totalConflictAux r rs

/-- Modelled from the spec: total conflict score of a schedule, summing each
round's conflicts against its immediately preceding round (the first round
has none). -/
def totalConflictScoreSpec : List (List SMatch) → Nat
  | [] => 0
  | r :: rs => totalConflictAux r rs

/-- The last-board map accumulated from the first `i` rounds of the
rebalanced schedule, the baseline against which round `i` is optimized. -/
def rebalChainLB (schedule : List (List SMatch)) (i : Nat) : String → Option Nat :=
  ((rebalanceBoards schedule).take i).foldl updateLB (fun _ => none)

/-- Occurrences of an unordered pair in the flattened output of the
round-robin pairer. -/
def countPairIn (rounds : List (List (String × String))) (p : String × String) : Nat :=
  rounds.flatten.countP
    (fun q => (q.1 = p.1 ∧ q.2 = p.2) ∨ (q.1 = p.2 ∧ q.2 = p.1))

/-- A board/round/group-count input the program coerces to 1: non-numeric
(`none`, i.e. `NaN` after `Number(…)`) or non-positive. -/
def badCount (x : Option Int) : Prop :=
  x = none ∨ ∃ n, x = some n ∧ n ≤ 0

/-- Concrete schedule for claim C6: four rounds on two boards; rounds 1-3
park B, A and C at board 1 in turn, round 4 pairs A with B at board 1 and C
with D at board 2. -/
def exC6 : List (List SMatch) :=
  [ [⟨1, 1, "B", "E", 1⟩],
    [⟨2, 1, "A", "F", 1⟩],
    [⟨3, 1, "C", "G", 1⟩],
    [⟨4, 1, "A", "B", 1⟩, ⟨4, 2, "C", "D", 1⟩] ]

/-- Concrete group-pairing input with a single two-player group, used to
instantiate the builder theorems. -/
def exGR1 : List (List (List (String × String))) := [[[("P1", "P2")]]]

/-! ## Lemmas about the board rebalancer -/

theorem innerSwaps_mask : ∀ (l : List SMatch) (lb : String → Option Nat) (m : SMatch),
    matchMask (innerSwaps lb m l).1 = matchMask m ∧
    (innerSwaps lb m l).2.1.map matchMask = l.map matchMask := by
  intro l
  induction l with
  | nil => intro lb m; exact ⟨rfl, rfl⟩
  | cons n rest ih =>
    intro lb m
    simp only [innerSwaps]
    split
    · have h := ih lb { m with board := n.board }
      refine ⟨h.1, ?_⟩
      simp only [List.map_cons, h.2]
      rfl
    · have h := ih lb m
      refine ⟨h.1, ?_⟩
      simp only [List.map_cons, h.2]

theorem onePassAux_mask : ∀ (k : Nat) (ms : List SMatch) (lb : String → Option Nat),
    (onePassAux lb k ms).1.map matchMask = ms.map matchMask := by
  intro k
  induction k with
  | zero => intro ms lb; rfl
  | succ k ih =>
    intro ms lb
    cases ms with
    | nil => rfl
    | cons m rest =>
      simp only [onePassAux, List.map_cons]
      have h := innerSwaps_mask rest lb m
      rw [h.1, ih _ lb, h.2]

theorem climb_mask : ∀ (fuel : Nat) (ms : List SMatch) (lb : String → Option Nat),
    (climb lb fuel ms).map matchMask = ms.map matchMask := by
  intro fuel
  induction fuel with
  | zero => intro ms lb; rfl
  | succ fuel ih =>
    intro ms lb
    simp only [climb, onePass]
    split
    · rw [ih _ lb, onePassAux_mask]
    · rw [onePassAux_mask]

theorem rebalanceRounds_mask : ∀ (s : List (List SMatch)) (lb : String → Option Nat),
    (rebalanceRounds lb s).map (List.map matchMask) = s.map (List.map matchMask) := by
  intro s
  induction s with
  | nil => intro lb; rfl
  | cons r rs ih =>
    intro lb
    simp only [rebalanceRounds, List.map_cons]
    rw [climb_mask, ih]

theorem innerSwaps_confSum : ∀ (l : List SMatch) (lb : String → Option Nat) (m : SMatch),
    conflictForMatch lb (innerSwaps lb m l).1 + confSum lb (innerSwaps lb m l).2.1 ≤
      conflictForMatch lb m + confSum lb l := by
  intro l
  induction l with
  | nil => intro lb m; simp [innerSwaps, confSum]
  | cons n rest ih =>
    intro lb m
    simp only [innerSwaps]
    split
    · have h := ih lb { m with board := n.board }
      rename_i hlt
      simp only [confSum, List.map_cons, List.sum_cons] at h ⊢
      omega
    · have h := ih lb m
      rename_i hge
      simp only [confSum, List.map_cons, List.sum_cons] at h ⊢
      omega

theorem onePassAux_confSum : ∀ (k : Nat) (ms : List SMatch) (lb : String → Option Nat),
    confSum lb (onePassAux lb k ms).1 ≤ confSum lb ms := by
  intro k
  induction k with
  | zero => intro ms lb; exact Nat.le_refl _
  | succ k ih =>
    intro ms lb
    cases ms with
    | nil => exact Nat.le_refl _
    | cons m rest =>
      simp only [onePassAux]
      have h1 := innerSwaps_confSum rest lb m
      have h2 := ih (innerSwaps lb m rest).2.1 lb
      simp only [confSum, List.map_cons, List.sum_cons] at h1 h2 ⊢
      omega

theorem climb_confSum : ∀ (fuel : Nat) (ms : List SMatch) (lb : String → Option Nat),
    confSum lb (climb lb fuel ms) ≤ confSum lb ms := by
  intro fuel
  induction fuel with
  | zero => intro ms lb; exact Nat.le_refl _
  | succ fuel ih =>
    intro ms lb
    simp only [climb]
    split
    · exact Nat.le_trans (ih _ lb) (onePassAux_confSum _ ms lb)
    · exact onePassAux_confSum _ ms lb

theorem rebalanceRounds_round_confSum :
    ∀ (s : List (List SMatch)) (lb : String → Option Nat) (i : Nat),
    confSum (((rebalanceRounds lb s).take i).foldl updateLB lb)
        ((rebalanceRounds lb s).getD i []) ≤
      confSum (((rebalanceRounds lb s).take i).foldl updateLB lb) (s.getD i []) := by
  intro s
  induction s with
  | nil => intro lb i; simp [rebalanceRounds]
  | cons r rs ih =>
    intro lb i
    cases i with
    | zero =>
      simp only [rebalanceRounds, List.take_zero, List.foldl_nil, List.getD_cons_zero]
      exact climb_confSum 10 r lb
    | succ j =>
      simp only [rebalanceRounds, List.take_succ_cons, List.foldl_cons, List.getD_cons_succ]
      exact ih (updateLB lb (climb lb 10 r)) j

/-! ## Claim theorems: rebalancer, pairer, coercion -/

/-- Claim C5: `rebalanceBoards` returns a schedule with the same number of rounds
in which every match keeps its position, roundNumber, players and group
index — only `boardNumber` values may change (stated by erasing the board
field), so no match is added, removed or reassigned between players. -/
theorem claim_C5_rebalance_frame (s : List (List SMatch)) :
    (rebalanceBoards s).map (List.map matchMask) = s.map (List.map matchMask) ∧
    (rebalanceBoards s).length = s.length := by
  refine ⟨rebalanceRounds_mask s _, ?_⟩
  have h := congrArg List.length (rebalanceRounds_mask s (fun _ => none))
  simpa [rebalanceBoards] using h

/-- Claim C10: within one round, holding the last-board mapping of the finalized
previous rounds fixed, the swap loop of `rebalanceBoards` (one pass, and the
full bounded 10-pass loop) never increases the round's total conflict score. -/
theorem claim_C10_round_local_monotone (lb : String → Option Nat) (ms : List SMatch) :
    confSum lb (climb lb 10 ms) ≤ confSum lb ms ∧
    confSum lb (onePass lb ms).1 ≤ confSum lb ms :=
  ⟨climb_confSum 10 ms lb, onePassAux_confSum ms.length ms lb⟩

/-- Claim C6 counterexample: on the concrete schedule `exC6` the total conflict
score — measured, as the claim states, against each player's board in the
immediately preceding round — increases from 0 to 1 after `rebalanceBoards`,
refuting the claimed non-increase. -/
theorem claim_C6_counterexample :
    ¬ (totalConflictScoreSpec (rebalanceBoards exC6) ≤ totalConflictScoreSpec exC6) := by
  decide

/-- Claim C6 amended: the guarantee the code does provide is local and relative:
for every round position `i`, the conflict of the rebalanced round against
the last-board map accumulated from the already-rebalanced earlier rounds
is at most the conflict the input round would have against that same map. -/
theorem claim_C6_conflict_relative_monotone (s : List (List SMatch)) (i : Nat) :
    confSum (rebalChainLB s i) ((rebalanceBoards s).getD i []) ≤
      confSum (rebalChainLB s i) (s.getD i []) :=
  rebalanceRounds_round_confSum s (fun _ => none) i

/-- Claim C4: the rotation of `roundRobinPairs` is broken (the front half is
recomputed to itself, only the back half flips), so on the four-player group
`P1..P4` the pair `{P1,P2}` is never produced while `{P1,P4}` is produced
twice — the claimed exactly-once round-robin coverage fails. -/
theorem claim_C4_roundrobin_code_bug :
    roundRobinPairs ["P1", "P2", "P3", "P4"] =
      [[("P1", "P4"), ("P2", "P3")], [("P1", "P3"), ("P2", "P4")],
        [("P1", "P4"), ("P2", "P3")]] ∧
    countPairIn (roundRobinPairs ["P1", "P2", "P3", "P4"]) ("P1", "P2") = 0 ∧
    countPairIn (roundRobinPairs ["P1", "P2", "P3", "P4"]) ("P1", "P4") = 2 := by
  refine ⟨by decide, by decide, by decide⟩

/-- Claim C8: a non-positive or non-numeric board, round or group count is
deterministically coerced to 1: the coercion yields 1 and both
`buildGlobalSchedule` and `splitIntoGroups` behave exactly as with the
input 1 in that position (they are total functions of the model). -/
theorem claim_C8_coercion (x : Option Int) (hx : badCount x) :
    coerceMin1 x = 1 ∧
    (∀ players, splitIntoGroups players x = splitIntoGroups players (some 1)) ∧
    (∀ gr y, buildGlobalSchedule gr x y = buildGlobalSchedule gr (some 1) y) ∧
    (∀ gr y, buildGlobalSchedule gr y x = buildGlobalSchedule gr y (some 1)) := by
  have h1 : coerceMin1 x = 1 := by
    rcases hx with h | ⟨n, rfl, hn⟩
    · subst h; rfl
    · simp only [coerceMin1, jsNumOr1]
      rcases eq_or_lt_of_le hn with h0 | h0
      · subst h0; rfl
      · rw [if_neg (Int.ne_of_lt h0)]
        omega
  have h2 : coerceMin1 (some 1) = 1 := rfl
  refine ⟨h1, ?_, ?_, ?_⟩
  · intro players
    simp only [splitIntoGroups, h1, h2]
  · intro gr y
    have hctx : buildCtx gr x y = buildCtx gr (some 1) y := by
      simp only [buildCtx, h1, h2]
    have hf : tryBuildAt gr x y = tryBuildAt gr (some 1) y := by
      funext t
      simp only [tryBuildAt, hctx]
    simp only [buildGlobalSchedule, initialTarget, capByBoards, capByRounds,
      fallbackSchedule, hf, h1, h2]
  · intro gr y
    have hctx : buildCtx gr y x = buildCtx gr y (some 1) := by
      simp only [buildCtx, h1, h2]
    have hf : tryBuildAt gr y x = tryBuildAt gr y (some 1) := by
      funext t
      simp only [tryBuildAt, hctx]
    simp only [buildGlobalSchedule, initialTarget, capByBoards, capByRounds,
      fallbackSchedule, hf, h1, h2]

/-- Witness for C8 at a concrete non-positive input. -/
theorem claim_C8_witness :
    coerceMin1 (some (-3)) = 1 ∧
    splitIntoGroups ["P1", "P2"] (some (-3)) = splitIntoGroups ["P1", "P2"] (some 1) := by
  have h := claim_C8_coercion (some (-3)) (Or.inr ⟨-3, rfl, by decide⟩)
  exact ⟨h.1, h.2.1 ["P1", "P2"]⟩

/-! ## Basic lemmas: dedup, pairs, keys, sorting -/

theorem dedupFirstAux_mem : ∀ (l seen : List String) (p : String),
    p ∈ dedupFirstAux seen l ↔ p ∈ l ∧ p ∉ seen := by
  intro l
  induction l with
  | nil => intro seen p; simp [dedupFirstAux]
  | cons x xs ih =>
    intro seen p
    simp only [dedupFirstAux]
    split
    · rename_i hx
      rw [ih seen p]
      simp only [List.mem_cons]
      constructor
      · rintro ⟨h1, h2⟩; exact ⟨Or.inr h1, h2⟩
      · rintro ⟨h1 | h1, h2⟩
        · subst h1; exact absurd hx h2
        · exact ⟨h1, h2⟩
    · rename_i hx
      simp only [List.mem_cons, ih (x :: seen) p, List.mem_cons]
      constructor
      · rintro (rfl | ⟨h1, h2⟩)
        · exact ⟨Or.inl rfl, hx⟩
        · exact ⟨Or.inr h1, fun hp => h2 (Or.inr hp)⟩
      · rintro ⟨rfl | h1, h2⟩
        · exact Or.inl rfl
        · rcases eq_or_ne p x with rfl | hne
          · exact Or.inl rfl
          · refine Or.inr ⟨h1, fun hp => ?_⟩
            rcases hp with h | h
            · exact hne h
            · exact h2 h

theorem dedupFirst_mem (l : List String) (p : String) : p ∈ dedupFirst l ↔ p ∈ l := by
  rw [dedupFirst, dedupFirstAux_mem]
  simp only [List.not_mem_nil, not_false_iff, and_true]

theorem dedupFirstAux_nodup : ∀ (l seen : List String), (dedupFirstAux seen l).Nodup := by
  intro l
  induction l with
  | nil => intro seen; exact List.nodup_nil
  | cons x xs ih =>
    intro seen
    simp only [dedupFirstAux]
    split
    · exact ih seen
    · refine List.Nodup.cons ?_ (ih (x :: seen))
      intro hx
      rw [dedupFirstAux_mem] at hx
      exact hx.2 (by simp)

theorem dedupFirst_nodup (l : List String) : (dedupFirst l).Nodup :=
  dedupFirstAux_nodup l []

theorem dedupFirst_eq_nil_iff (l : List String) : dedupFirst l = [] ↔ l = [] := by
  constructor
  · intro h
    cases l with
    | nil => rfl
    | cons x xs =>
      exfalso
      have hx : x ∈ dedupFirst (x :: xs) := (dedupFirst_mem _ x).2 (by simp)
      rw [h] at hx
      exact List.not_mem_nil x hx
  · rintro rfl; rfl

theorem pairsOf_ne : ∀ (l : List String), l.Nodup → ∀ pr ∈ pairsOf l, pr.1 ≠ pr.2 := by
  intro l
  induction l with
  | nil => intro _ pr h; exact absurd h (List.not_mem_nil pr)
  | cons x xs ih =>
    intro hnd pr hpr
    simp only [pairsOf, List.mem_append, List.mem_map] at hpr
    rcases hpr with ⟨y, hy, rfl⟩ | hpr
    · intro h
      have hxy : x = y := h
      subst hxy
      exact (List.nodup_cons.1 hnd).1 hy
    · exact ih (List.nodup_cons.1 hnd).2 pr hpr

theorem groupsOf_nodup (gr : List (List (List (String × String)))) :
    ∀ g ∈ groupsOf gr, g.Nodup := by
  intro g hg
  simp only [groupsOf, List.mem_map] at hg
  obtain ⟨x, _, rfl⟩ := hg
  exact dedupFirst_nodup _

theorem allMatchesOf_ne (gr : List (List (List (String × String)))) :
    ∀ m ∈ allMatchesOf gr, m.A ≠ m.B := by
  intro m hm
  simp only [allMatchesOf, List.mem_flatMap, List.mem_map] at hm
  obtain ⟨⟨i, g⟩, hig, pr, hpr, rfl⟩ := hm
  have hg : g ∈ groupsOf gr := by
    have := List.mem_map_of_mem Prod.snd hig
    rwa [List.enum_map_snd] at this
  exact pairsOf_ne g (groupsOf_nodup gr g hg) pr hpr

theorem pairKey_symm (a b : String) : pairKey a b = pairKey b a := by
  unfold pairKey
  rcases lt_trichotomy a b with h | rfl | h
  · rw [if_pos h, if_neg (not_lt_of_lt h)]
  · rfl
  · rw [if_neg (not_lt_of_lt h), if_pos h]

theorem samePair_key {m1 m2 : SMatch} (h : samePair m1 m2) :
    pairKey m1.A m1.B = pairKey m2.A m2.B := by
  rcases h with ⟨h1, h2⟩ | ⟨h1, h2⟩
  · rw [h1, h2]
  · rw [h1, h2, pairKey_symm]

theorem sortCandidates_perm (st : BuildSt) (r t : Nat) (cands : List Cand) :
    (sortCandidates st r t cands).Perm cands := by
  unfold sortCandidates
  have h := List.perm_insertionSort (candRel st r t) cands.enum
  have h2 := h.map Prod.snd
  rwa [List.enum_map_snd] at h2

theorem sortCandidates_mem (st : BuildSt) (r t : Nat) (cands : List Cand) (m : Cand) :
    m ∈ sortCandidates st r t cands ↔ m ∈ cands :=
  (sortCandidates_perm st r t cands).mem_iff

theorem boardsFrom_append : ∀ (l : List SMatch) (k : Nat) (m : SMatch),
    boardsFrom k l → m.board = k + l.length + 1 → boardsFrom k (l ++ [m]) := by
  intro l
  induction l with
  | nil => intro k m _ hm; exact ⟨by simpa using hm, trivial⟩
  | cons x xs ih =>
    intro k m hb hm
    exact ⟨hb.1, ih (k + 1) m hb.2 (by simp at hm ⊢; omega)⟩

theorem boardsFrom_get : ∀ (l : List SMatch) (k : Nat), boardsFrom k l →
    ∀ (i : Nat) (hi : i < l.length), (l.get ⟨i, hi⟩).board = k + i + 1 := by
  intro l
  induction l with
  | nil => intro k _ i hi; exact absurd hi (by simp)
  | cons x xs ih =>
    intro k hb i hi
    cases i with
    | zero => simpa using hb.1
    | succ j =>
      have := ih (k + 1) hb.2 j (by simpa using hi)
      simpa [Nat.add_assoc, Nat.add_comm, Nat.add_left_comm] using this

theorem appearCount_append (p : String) (l1 l2 : List SMatch) :
    appearCount p (l1 ++ l2) = appearCount p l1 + appearCount p l2 := by
  unfold appearCount
  exact List.countP_append _ _ _

theorem appearCount_singleton (p : String) (m : SMatch) :
    appearCount p [m] = if m.A = p ∨ m.B = p then 1 else 0 := by
  simp only [appearCount, List.countP_cons, List.countP_nil, Nat.zero_add]
  by_cases h : m.A = p ∨ m.B = p
  · rw [if_pos h, if_pos (by simpa using h)]
  · rw [if_neg h, if_neg (by simpa using h)]

theorem selectLoop_inv :
    ∀ (cs : List Cand) (b r : Nat) (pp0 : List String) (flat0 : List SMatch) (s : SelSt),
    (∀ m ∈ cs, m.A ≠ m.B ∧ pairKey m.A m.B ∉ pp0) →
    (∀ mm ∈ flat0, pairKey mm.A mm.B ∈ pp0) →
    (∀ p, p ∈ s.used ↔ ∃ mm ∈ s.acc, mm.A = p ∨ mm.B = p) →
    (∀ p, s.st.gp p = appearCount p (flat0 ++ s.acc)) →
    (∀ mm ∈ flat0 ++ s.acc, pairKey mm.A mm.B ∈ s.st.pp) →
    List.Pairwise (fun m1 m2 => ¬ samePair m1 m2) (flat0 ++ s.acc) →
    s.acc.length ≤ b →
    boardsFrom 0 s.acc →
    List.Pairwise disjointPlayers s.acc →
    (∀ p, (selectLoop b r cs s).st.gp p = appearCount p (flat0 ++ (selectLoop b r cs s).acc)) ∧
    (∀ mm ∈ flat0 ++ (selectLoop b r cs s).acc,
      pairKey mm.A mm.B ∈ (selectLoop b r cs s).st.pp) ∧
    List.Pairwise (fun m1 m2 => ¬ samePair m1 m2) (flat0 ++ (selectLoop b r cs s).acc) ∧
    (selectLoop b r cs s).acc.length ≤ b ∧
    boardsFrom 0 (selectLoop b r cs s).acc ∧
    List.Pairwise disjointPlayers (selectLoop b r cs s).acc := by
  intro cs
  induction cs with
  | nil =>
    intro b r pp0 flat0 s _ _ _ hgp hpk hpw hlen hbrd hdp
    exact ⟨hgp, hpk, hpw, hlen, hbrd, hdp⟩
  | cons m rest ih =>
    intro b r pp0 flat0 s hc hflat0 hused hgp hpk hpw hlen hbrd hdp
    have hcm := hc m (List.mem_cons_self m rest)
    have hAB : m.A ≠ m.B := hcm.1
    have hkey : pairKey m.A m.B ∉ pp0 := hcm.2
    have hcrest : ∀ mm ∈ rest, mm.A ≠ mm.B ∧ pairKey mm.A mm.B ∉ pp0 :=
      fun mm hmm => hc mm (List.mem_cons_of_mem m hmm)
    simp only [selectLoop]
    split
    · exact ⟨hgp, hpk, hpw, hlen, hbrd, hdp⟩
    · rename_i hfull
      split
      · exact ih b r pp0 flat0 s hcrest hflat0 hused hgp hpk hpw hlen hbrd hdp
      · rename_i hguard
        have hnotused : m.A ∉ s.used ∧ m.B ∉ s.used := by
          have hg : (s.used.contains m.A || s.used.contains m.B) = false := by
            simpa using hguard
          simpa only [List.contains, Bool.or_eq_false_iff, List.elem_eq_mem,
            decide_eq_false_iff_not] using hg
        set M : SMatch :=
          { round := r, board := s.acc.length + 1, A := m.A, B := m.B, group := m.group } with hM
        have hMA : M.A = m.A := rfl
        have hMB : M.B = m.B := rfl
        have hnotacc : ∀ mm ∈ s.acc, mm.A ≠ m.A ∧ mm.A ≠ m.B ∧ mm.B ≠ m.A ∧ mm.B ≠ m.B := by
          intro mm hmm
          refine ⟨?_, ?_, ?_, ?_⟩ <;> intro h
          · exact hnotused.1 ((hused m.A).2 ⟨mm, hmm, Or.inl h⟩)
          · exact hnotused.2 ((hused m.B).2 ⟨mm, hmm, Or.inl h⟩)
          · exact hnotused.1 ((hused m.A).2 ⟨mm, hmm, Or.inr h⟩)
          · exact hnotused.2 ((hused m.B).2 ⟨mm, hmm, Or.inr h⟩)
        have hused' : ∀ p, p ∈ (commitCand r m s).used ↔
            ∃ mm ∈ (commitCand r m s).acc, mm.A = p ∨ mm.B = p := by
          intro p
          simp only [commitCand, List.mem_cons, List.mem_append]
          constructor
          · rintro (rfl | rfl | hp)
            · exact ⟨M, Or.inr (by simp), Or.inl rfl⟩
            · exact ⟨M, Or.inr (by simp), Or.inr rfl⟩
            · obtain ⟨mm, hmm, h⟩ := (hused p).1 hp
              exact ⟨mm, Or.inl hmm, h⟩
          · rintro ⟨mm, hmm | hmm, h⟩
            · exact Or.inr (Or.inr ((hused p).2 ⟨mm, hmm, h⟩))
            · have : mm = M := by simpa using hmm
              subst this
              rcases h with rfl | rfl
              · exact Or.inl rfl
              · exact Or.inr (Or.inl rfl)
        have hgp' : ∀ p, (commitCand r m s).st.gp p =
            appearCount p (flat0 ++ (commitCand r m s).acc) := by
          intro p
          simp only [commitCand]
          rw [← List.append_assoc, appearCount_append, appearCount_singleton, hMA, hMB]
          have hg := hgp p
          simp only [bump]
          rcases eq_or_ne p m.A with hA | hA
          · have h1 : p ≠ m.B := fun h => hAB (hA.symm.trans h)
            rw [if_neg h1, if_pos hA, if_pos (Or.inl hA.symm)]
            omega
          · rcases eq_or_ne p m.B with hB | hB
            · rw [if_pos hB, if_neg hA, if_pos (Or.inr hB.symm)]
              omega
            · have h3 : ¬ (m.A = p ∨ m.B = p) := by
                rintro (h | h)
                · exact hA h.symm
                · exact hB h.symm
              rw [if_neg hB, if_neg hA, if_neg h3]
              omega
        have hpk' : ∀ mm ∈ flat0 ++ (commitCand r m s).acc,
            pairKey mm.A mm.B ∈ (commitCand r m s).st.pp := by
          intro mm hmm
          simp only [commitCand] at hmm ⊢
          rw [← List.append_assoc] at hmm
          rcases List.mem_append.1 hmm with h | h
          · exact List.mem_append_left _ (hpk mm h)
          · have : mm = M := by simpa using h
            subst this
            exact List.mem_append_right _ (by simp)
        have hnewpair : ∀ mm ∈ flat0 ++ s.acc, ¬ samePair mm M := by
          intro mm hmm hsp
          rcases List.mem_append.1 hmm with h | h
          · have hk := samePair_key hsp
            rw [hMA, hMB] at hk
            exact hkey (hk ▸ hflat0 mm h)
          · rcases hsp with ⟨h1, _⟩ | ⟨h1, _⟩
            · exact (hnotacc mm h).1 (by rw [h1, hMA])
            · exact (hnotacc mm h).2.1 (by rw [h1, hMB])
        have hpw' : List.Pairwise (fun m1 m2 => ¬ samePair m1 m2)
            (flat0 ++ (commitCand r m s).acc) := by
          simp only [commitCand]
          rw [← List.append_assoc]
          rw [List.pairwise_append]
          exact ⟨hpw, List.pairwise_singleton _ _,
            fun a ha y hy => by
              have : y = M := by simpa using hy
              subst this
              exact hnewpair a ha⟩
        have hlen' : (commitCand r m s).acc.length ≤ b := by
          simp only [commitCand, List.length_append, List.length_cons, List.length_nil]
          omega
        have hbrd' : boardsFrom 0 (commitCand r m s).acc := by
          simp only [commitCand]
          exact boardsFrom_append s.acc 0 M hbrd (by simp)
        have hdp' : List.Pairwise disjointPlayers (commitCand r m s).acc := by
          simp only [commitCand]
          rw [List.pairwise_append]
          refine ⟨hdp, List.pairwise_singleton _ _, fun a ha y hy => ?_⟩
          have : y = M := by simpa using hy
          subst this
          have h4 := hnotacc a ha
          exact ⟨fun h => h4.1 (by rw [h, hMA]), fun h => h4.2.1 (by rw [h, hMB]),
            fun h => h4.2.2.1 (by rw [h, hMA]), fun h => h4.2.2.2 (by rw [h, hMB])⟩
        exact ih b r pp0 flat0 (commitCand r m s) hcrest hflat0 hused' hgp' hpk' hpw'
          hlen' hbrd' hdp'

theorem roundsLoop_inv :
    ∀ (rs : List Nat) (allM : List Cand) (b t : Nat) (flat : List SMatch) (st : BuildSt),
    (∀ m ∈ allM, m.A ≠ m.B) →
    (∀ p, st.gp p = appearCount p flat) →
    (∀ mm ∈ flat, pairKey mm.A mm.B ∈ st.pp) →
    List.Pairwise (fun m1 m2 => ¬ samePair m1 m2) flat →
    (∀ p, (roundsLoop allM b t rs st).2.gp p =
      appearCount p (flat ++ (roundsLoop allM b t rs st).1.flatten)) ∧
    (∀ mm ∈ flat ++ (roundsLoop allM b t rs st).1.flatten,
      pairKey mm.A mm.B ∈ (roundsLoop allM b t rs st).2.pp) ∧
    List.Pairwise (fun m1 m2 => ¬ samePair m1 m2)
      (flat ++ (roundsLoop allM b t rs st).1.flatten) ∧
    (∀ round ∈ (roundsLoop allM b t rs st).1,
      round.length ≤ b ∧ boardsFrom 0 round ∧ List.Pairwise disjointPlayers round) := by
  intro rs
  induction rs with
  | nil =>
    intro allM b t flat st _ hgp hpk hpw
    simp only [roundsLoop, List.flatten_nil, List.append_nil]
    exact ⟨hgp, hpk, hpw, fun round h => absurd h (List.not_mem_nil round)⟩
  | cons r rs ih =>
    intro allM b t flat st hAB hgp hpk hpw
    have hcand : ∀ m ∈ sortCandidates st r t (allM.filter (filterPred st t)),
        m.A ≠ m.B ∧ pairKey m.A m.B ∉ st.pp := by
      intro m hm
      rw [sortCandidates_mem] at hm
      obtain ⟨hmem, hpred⟩ := List.mem_filter.1 hm
      refine ⟨hAB m hmem, ?_⟩
      simp only [filterPred, Bool.and_eq_true, Bool.not_eq_true'] at hpred
      have hc := hpred.1.1
      simp only [List.contains, List.elem_eq_mem, decide_eq_false_iff_not] at hc
      exact hc
    have hsel := selectLoop_inv (sortCandidates st r t (allM.filter (filterPred st t)))
      b r st.pp flat ⟨[], [], st⟩ hcand hpk
      (by intro p; simp)
      (by intro p; simpa using hgp p)
      (by simpa using hpk)
      (by simpa using hpw)
      (by simp)
      trivial
      List.Pairwise.nil
    obtain ⟨sgp, spk, spw, slen, sbrd, sdp⟩ := hsel
    have hrec := ih allM b t
      (flat ++ (selectLoop b r (sortCandidates st r t (allM.filter (filterPred st t)))
        ⟨[], [], st⟩).acc)
      (selectLoop b r (sortCandidates st r t (allM.filter (filterPred st t))) ⟨[], [], st⟩).st
      hAB sgp spk spw
    obtain ⟨rgp, rpk, rpw, rrounds⟩ := hrec
    simp only [roundsLoop, List.flatten_cons]
    rw [← List.append_assoc]
    refine ⟨rgp, rpk, rpw, ?_⟩
    intro round hround
    rcases List.mem_cons.1 hround with rfl | h
    · exact ⟨slen, sbrd, sdp⟩
    · exact rrounds round h

theorem natMinList_mem : ∀ (l : List Nat), l ≠ [] → natMinList l ∈ l := by
  intro l
  induction l with
  | nil => intro h; exact absurd rfl h
  | cons x xs ih =>
    intro _
    cases xs with
    | nil => simp [natMinList]
    | cons y ys =>
      show min x (natMinList (y :: ys)) ∈ x :: y :: ys
      rcases min_cases x (natMinList (y :: ys)) with ⟨h, _⟩ | ⟨h, _⟩
      · rw [h]; exact List.mem_cons_self x _
      · rw [h]; exact List.mem_cons_of_mem x (ih (List.cons_ne_nil y ys))

theorem natMinList_le : ∀ (l : List Nat) (c : Nat), c ∈ l → natMinList l ≤ c := by
  intro l
  induction l with
  | nil => intro c h; exact absurd h (List.not_mem_nil c)
  | cons x xs ih =>
    intro c hc
    cases xs with
    | nil =>
      have : c = x := by simpa using hc
      subst this
      exact Nat.le_refl c
    | cons y ys =>
      show min x (natMinList (y :: ys)) ≤ c
      rcases List.mem_cons.1 hc with rfl | h
      · exact min_le_left _ _
      · exact le_trans (min_le_right _ _) (ih c h)

theorem natMaxList_mem : ∀ (l : List Nat), l ≠ [] → natMaxList l ∈ l := by
  intro l
  induction l with
  | nil => intro h; exact absurd rfl h
  | cons x xs ih =>
    intro _
    cases xs with
    | nil => simp [natMaxList]
    | cons y ys =>
      show max x (natMaxList (y :: ys)) ∈ x :: y :: ys
      rcases max_cases x (natMaxList (y :: ys)) with ⟨h, _⟩ | ⟨h, _⟩
      · rw [h]; exact List.mem_cons_self x _
      · rw [h]; exact List.mem_cons_of_mem x (ih (List.cons_ne_nil y ys))

theorem le_natMaxList : ∀ (l : List Nat) (c : Nat), c ∈ l → c ≤ natMaxList l := by
  intro l
  induction l with
  | nil => intro c h; exact absurd h (List.not_mem_nil c)
  | cons x xs ih =>
    intro c hc
    cases xs with
    | nil =>
      have : c = x := by simpa using hc
      subst this
      exact Nat.le_refl c
    | cons y ys =>
      show c ≤ max x (natMaxList (y :: ys))
      rcases List.mem_cons.1 hc with rfl | h
      · exact le_max_left _ _
      · exact le_trans (ih c h) (le_max_right _ _)

theorem tryEqual_iff (counts : List Nat) (t : Nat) :
    tryEqual counts t = true ↔ counts ≠ [] ∧ ∀ c ∈ counts, c = t := by
  cases counts with
  | nil => simp [tryEqual]
  | cons c cs =>
    simp only [tryEqual, Bool.and_eq_true, decide_eq_true_eq]
    constructor
    · rintro ⟨h1, h2⟩
      refine ⟨List.cons_ne_nil c cs, fun x hx => ?_⟩
      have hmin := natMinList_le (c :: cs) x hx
      have hmax := le_natMaxList (c :: cs) x hx
      omega
    · rintro ⟨_, hall⟩
      have h1 : natMinList (c :: cs) = t :=
        hall _ (natMinList_mem (c :: cs) (List.cons_ne_nil c cs))
      have h2 : natMaxList (c :: cs) = t :=
        hall _ (natMaxList_mem (c :: cs) (List.cons_ne_nil c cs))
      exact ⟨by omega, h2⟩

theorem buildSearch_cases :
    ∀ (t0 : Nat) (f : Nat → List (List SMatch) × Bool) (fb : List (List SMatch)),
    (buildSearch f fb t0 = fb ∧ ∀ t, t ≤ t0 → (f t).2 = false) ∨
    ∃ t, t ≤ t0 ∧ (f t).2 = true ∧ buildSearch f fb t0 = (f t).1 ∧
      ∀ t', t < t' → t' ≤ t0 → (f t').2 = false := by
  intro t0
  induction t0 with
  | zero =>
    intro f fb
    by_cases h : (f 0).2 = true
    · right
      exact ⟨0, Nat.le_refl 0, h, by simp [buildSearch, h], fun t' h1 h2 => by omega⟩
    · have hf : (f 0).2 = false := by
        cases hb : (f 0).2
        · rfl
        · exact absurd hb h
      left
      refine ⟨by simp [buildSearch, hf], fun s hs => ?_⟩
      have : s = 0 := Nat.le_zero.1 hs
      subst this
      exact hf
  | succ k ih =>
    intro f fb
    by_cases h : (f (k + 1)).2 = true
    · right
      exact ⟨k + 1, Nat.le_refl _, h, by simp [buildSearch, h], fun t' h1 h2 => by omega⟩
    · have hf : (f (k + 1)).2 = false := by
        cases hb : (f (k + 1)).2
        · rfl
        · exact absurd hb h
      have hb : buildSearch f fb (k + 1) = buildSearch f fb k := by
        simp [buildSearch, hf]
      rcases ih f fb with ⟨hfb, hall⟩ | ⟨s, hs, hflag, heq, hmax⟩
      · left
        refine ⟨hb.trans hfb, fun s hs => ?_⟩
        rcases Nat.lt_or_ge s (k + 1) with h1 | h1
        · exact hall s (by omega)
        · have : s = k + 1 := by omega
          subst this
          exact hf
      · right
        refine ⟨s, by omega, hflag, hb.trans heq, fun t' h1 h2 => ?_⟩
        rcases Nat.lt_or_ge t' (k + 1) with h3 | h3
        · exact hmax t' h1 (by omega)
        · have : t' = k + 1 := by omega
          subst this
          exact hf

theorem fallback_flatten (R : Option Int) : (fallbackSchedule R).flatten = [] := by
  rw [List.flatten_eq_nil_iff]
  intro l hl
  exact List.eq_of_mem_replicate hl

theorem tryBuild_inv (ctx : BuildCtx) (t : Nat) (hAB : ∀ m ∈ ctx.allMatches, m.A ≠ m.B) :
    List.Pairwise (fun m1 m2 => ¬ samePair m1 m2) (tryBuild ctx t).1.flatten ∧
    (∀ round ∈ (tryBuild ctx t).1,
      round.length ≤ ctx.boards ∧ boardsFrom 0 round ∧
      List.Pairwise disjointPlayers round) ∧
    ((tryBuild ctx t).2 = true ↔
      (ctx.allPlayers ≠ [] ∧
        ∀ p ∈ ctx.allPlayers, appearCount p (tryBuild ctx t).1.flatten = t)) := by
  have h := roundsLoop_inv (List.range' 1 ctx.totalRounds) ctx.allMatches ctx.boards t []
    ⟨fun _ => 0, [], fun _ => 0⟩ hAB (fun p => rfl)
    (fun mm hmm => absurd hmm (List.not_mem_nil mm)) List.Pairwise.nil
  obtain ⟨hgp, _, hpw, hrounds⟩ := h
  simp only [List.nil_append] at hgp hpw
  refine ⟨hpw, hrounds, ?_⟩
  simp only [tryBuild]
  rw [tryEqual_iff]
  constructor
  · rintro ⟨hne, hall⟩
    refine ⟨fun hp => hne (by simp [hp]), fun p hp => ?_⟩
    have := hall _ (List.mem_map_of_mem _ hp)
    rw [← hgp p]
    exact this
  · rintro ⟨hne, hall⟩
    refine ⟨fun hmap => hne (by simpa using hmap), fun c hc => ?_⟩
    obtain ⟨p, hp, rfl⟩ := List.mem_map.1 hc
    rw [hgp p]
    exact hall p hp

theorem roundsLoop_nil_matches :
    ∀ (rs : List Nat) (b t : Nat) (st : BuildSt),
    roundsLoop [] b t rs st = (rs.map (fun _ => ([] : List SMatch)), st) := by
  intro rs
  induction rs with
  | nil => intro b t st; rfl
  | cons r rs ih =>
    intro b t st
    simp only [roundsLoop, List.filter_nil, List.map_cons]
    rw [show sortCandidates st r t [] = [] from rfl]
    rw [show selectLoop b r [] ⟨[], [], st⟩ = ⟨[], [], st⟩ from rfl]
    rw [ih b t st]

theorem buildSearch_all_false :
    ∀ (t0 : Nat) (f : Nat → List (List SMatch) × Bool) (fb : List (List SMatch)),
    (∀ t, (f t).2 = false) → buildSearch f fb t0 = fb := by
  intro t0
  induction t0 with
  | zero => intro f fb hf; simp [buildSearch, hf 0]
  | succ k ih =>
    intro f fb hf
    simp only [buildSearch, hf (k + 1)]
    exact ih f fb hf

/-! ## Claim theorems: the global schedule builder -/

/-- Claim C2: in every output of `buildGlobalSchedule` — successful build or
fallback — no unordered player pair appears in more than one match across
the entire schedule. -/
theorem claim_C2_no_rematch (gr : List (List (List (String × String))))
    (b R : Option Int) :
    List.Pairwise (fun m1 m2 => ¬ samePair m1 m2) (buildGlobalSchedule gr b R).flatten := by
  rcases buildSearch_cases (initialTarget gr b R) (tryBuildAt gr b R) (fallbackSchedule R)
    with ⟨heq, _⟩ | ⟨s, _, _, heq, _⟩
  · unfold buildGlobalSchedule
    rw [heq, fallback_flatten]
    exact List.Pairwise.nil
  · unfold buildGlobalSchedule
    rw [heq]
    exact (tryBuild_inv (buildCtx gr b R) s (allMatchesOf_ne gr)).1

/-- Claim C3: in every round of every `buildGlobalSchedule` output no player
appears in more than one match, the round has at most the coerced board
count of matches, and board numbers are the 1-based selection order. -/
theorem claim_C3_round_invariants (gr : List (List (List (String × String))))
    (b R : Option Int) :
    ∀ round ∈ buildGlobalSchedule gr b R,
      List.Pairwise disjointPlayers round ∧ round.length ≤ coerceMin1 b ∧
      ∀ (i : Nat) (hi : i < round.length), (round.get ⟨i, hi⟩).board = i + 1 := by
  intro round hround
  rcases buildSearch_cases (initialTarget gr b R) (tryBuildAt gr b R) (fallbackSchedule R)
    with ⟨heq, _⟩ | ⟨s, _, _, heq, _⟩
  · unfold buildGlobalSchedule at hround
    rw [heq] at hround
    have : round = [] := List.eq_of_mem_replicate hround
    subst this
    exact ⟨List.Pairwise.nil, Nat.zero_le _, fun i hi => absurd hi (by simp)⟩
  · unfold buildGlobalSchedule at hround
    rw [heq] at hround
    have h := ((tryBuild_inv (buildCtx gr b R) s (allMatchesOf_ne gr)).2.1) round hround
    refine ⟨h.2.2, h.1, fun i hi => ?_⟩
    have := boardsFrom_get round 0 h.2.1 i hi
    omega

/-- Claim C1: whenever `buildGlobalSchedule` returns anything other than the
all-empty fallback value, there is a discovered target `t`, at most
`min(capByBoards, capByRounds, capByOpponents)`, such that the result is the
`tryBuild` attempt at `t`, that attempt reports perfect equality, every
player's appearance count across the returned schedule equals `t`, `t` is
the largest target below the cap whose attempt reports equality, and an
attempt reports equality exactly when all players' appearance counts equal
its target. -/
theorem claim_C1_equalized_target (gr : List (List (List (String × String))))
    (b R : Option Int)
    (h : buildGlobalSchedule gr b R ≠ fallbackSchedule R) :
    ∃ t, t ≤ min (capByBoards gr b R) (min (capByRounds R) (capByOpponents gr)) ∧
      (tryBuildAt gr b R t).2 = true ∧
      buildGlobalSchedule gr b R = (tryBuildAt gr b R t).1 ∧
      (∀ p ∈ allPlayersOf gr, appearCount p (buildGlobalSchedule gr b R).flatten = t) ∧
      (∀ t', t' ≤ min (capByBoards gr b R) (min (capByRounds R) (capByOpponents gr)) →
        (tryBuildAt gr b R t').2 = true → t' ≤ t) ∧
      (∀ t', (tryBuildAt gr b R t').2 = true ↔
        (allPlayersOf gr ≠ [] ∧
          ∀ p ∈ allPlayersOf gr, appearCount p (tryBuildAt gr b R t').1.flatten = t')) := by
  rcases buildSearch_cases (initialTarget gr b R) (tryBuildAt gr b R) (fallbackSchedule R)
    with ⟨heq, _⟩ | ⟨s, hs, hflag, heq, hmax⟩
  · exact absurd heq h
  · have hiff : ∀ t', (tryBuildAt gr b R t').2 = true ↔
        (allPlayersOf gr ≠ [] ∧
          ∀ p ∈ allPlayersOf gr, appearCount p (tryBuildAt gr b R t').1.flatten = t') :=
      fun t' => (tryBuild_inv (buildCtx gr b R) t' (allMatchesOf_ne gr)).2.2
    have heq' : buildGlobalSchedule gr b R = (tryBuildAt gr b R s).1 := heq
    refine ⟨s, hs, hflag, heq', ?_, ?_, hiff⟩
    · intro p hp
      rw [heq']
      exact ((hiff s).1 hflag).2 p hp
    · intro t' ht' hflag'
      by_contra hgt
      have hlt : s < t' := by omega
      have := hmax t' hlt ht'
      rw [hflag'] at this
      simp at this

/-- Witness for C1 on a concrete one-group, one-board, one-round input
whose build succeeds with target 1. -/
theorem claim_C1_witness :
    ∃ t, t ≤ min (capByBoards exGR1 (some 1) (some 1))
        (min (capByRounds (some 1)) (capByOpponents exGR1)) ∧
      (tryBuildAt exGR1 (some 1) (some 1) t).2 = true ∧
      buildGlobalSchedule exGR1 (some 1) (some 1) = (tryBuildAt exGR1 (some 1) (some 1) t).1 ∧
      (∀ p ∈ allPlayersOf exGR1,
        appearCount p (buildGlobalSchedule exGR1 (some 1) (some 1)).flatten = t) ∧
      (∀ t', t' ≤ min (capByBoards exGR1 (some 1) (some 1))
          (min (capByRounds (some 1)) (capByOpponents exGR1)) →
        (tryBuildAt exGR1 (some 1) (some 1) t').2 = true → t' ≤ t) ∧
      (∀ t', (tryBuildAt exGR1 (some 1) (some 1) t').2 = true ↔
        (allPlayersOf exGR1 ≠ [] ∧
          ∀ p ∈ allPlayersOf exGR1,
            appearCount p (tryBuildAt exGR1 (some 1) (some 1) t').1.flatten = t')) :=
  claim_C1_equalized_target exGR1 (some 1) (some 1) (by decide)

/-- Claim C7: with an empty player set (no groups, or groups containing no
players), `buildGlobalSchedule` returns exactly `roundCount` empty rounds
(it is a total function, so no error is possible), and the games-played
aggregation over the empty player list is the empty mapping. -/
theorem claim_C7_empty_players (gr : List (List (List (String × String))))
    (b R : Option Int) (h : allPlayersOf gr = []) :
    buildGlobalSchedule gr b R = List.replicate (coerceMin1 R) [] ∧
    ∀ p, computeGamesPlayed [] (buildGlobalSchedule gr b R) p = none := by
  have hflat : (groupsOf gr).flatten = [] := by
    have := h
    rw [allPlayersOf] at this
    exact (dedupFirst_eq_nil_iff _).1 this
  have hgroups : ∀ g ∈ groupsOf gr, g = [] := List.flatten_eq_nil_iff.1 hflat
  have hm : allMatchesOf gr = [] := by
    rw [List.eq_nil_iff_forall_not_mem]
    intro m hm
    simp only [allMatchesOf, List.mem_flatMap, List.mem_map] at hm
    obtain ⟨⟨i, g⟩, hig, pr, hpr, _⟩ := hm
    have hg : g ∈ groupsOf gr := by
      have := List.mem_map_of_mem Prod.snd hig
      rwa [List.enum_map_snd] at this
    rw [hgroups g hg] at hpr
    exact absurd hpr (List.not_mem_nil pr)
  have hfalse : ∀ t, (tryBuildAt gr b R t).2 = false := by
    intro t
    simp only [tryBuildAt, tryBuild, buildCtx, hm, h, roundsLoop_nil_matches,
      List.map_nil]
    rfl
  have hres : buildGlobalSchedule gr b R = fallbackSchedule R :=
    buildSearch_all_false _ _ _ hfalse
  refine ⟨hres, fun p => ?_⟩
  simp [computeGamesPlayed]

/-- Witness for C7 on the concrete zero-group input. -/
theorem claim_C7_witness :
    buildGlobalSchedule [] (some 2) (some 3) = List.replicate (coerceMin1 (some 3)) [] ∧
    ∀ p, computeGamesPlayed [] (buildGlobalSchedule [] (some 2) (some 3)) p = none :=
  claim_C7_empty_players [] (some 2) (some 3) rfl

/-! ## Lemmas about the candidate comparator and claim C9 -/

theorem cmpCand_antisymm (st : BuildSt) (r t : Nat) (m1 m2 : Cand) :
    cmpCand st r t m1 m2 = - cmpCand st r t m2 m1 := by
  simp only [cmpCand]
  split_ifs <;> omega

theorem cmpCand_neg_iff (st : BuildSt) (r t : Nat) (m1 m2 : Cand) :
    cmpCand st r t m1 m2 < 0 ↔
      (candByeScore st.lp r m2 < candByeScore st.lp r m1 ∨
        (candByeScore st.lp r m2 = candByeScore st.lp r m1 ∧
          (candNeed st.gp t m2 < candNeed st.gp t m1 ∨
            (candNeed st.gp t m2 = candNeed st.gp t m1 ∧
              candMaxNeed st.gp t m2 < candMaxNeed st.gp t m1)))) := by
  simp only [cmpCand]
  split_ifs <;> omega

theorem cmpCand_eq_zero_iff (st : BuildSt) (r t : Nat) (m1 m2 : Cand) :
    cmpCand st r t m1 m2 = 0 ↔
      (candByeScore st.lp r m2 = candByeScore st.lp r m1 ∧
        candNeed st.gp t m2 = candNeed st.gp t m1 ∧
        candMaxNeed st.gp t m2 = candMaxNeed st.gp t m1) := by
  simp only [cmpCand]
  split_ifs <;> omega

theorem candLE_true_iff (st : BuildSt) (r t : Nat) (a b : Nat × Cand) :
    candLE st r t a b = true ↔
      (cmpCand st r t a.2 b.2 < 0 ∨ (cmpCand st r t a.2 b.2 = 0 ∧ a.1 ≤ b.1)) := by
  unfold candLE
  split_ifs with h1 h2
  · simp [h1]
  · simp [h1, h2]
  · simp [h1, h2]

theorem candRel_trans (st : BuildSt) (r t : Nat) (a b c : Nat × Cand) :
    candRel st r t a b → candRel st r t b c → candRel st r t a c := by
  intro hab hbc
  unfold candRel at *
  rw [candLE_true_iff] at hab hbc ⊢
  rw [cmpCand_neg_iff, cmpCand_eq_zero_iff] at hab hbc ⊢
  rcases hab with hab | hab <;> rcases hbc with hbc | hbc
  · left; omega
  · left; omega
  · left; omega
  · right; exact ⟨by omega, Nat.le_trans hab.2 hbc.2⟩

theorem candRel_total (st : BuildSt) (r t : Nat) (a b : Nat × Cand) :
    candRel st r t a b ∨ candRel st r t b a := by
  unfold candRel
  rw [candLE_true_iff, candLE_true_iff]
  have ha := cmpCand_antisymm st r t a.2 b.2
  rcases lt_trichotomy (cmpCand st r t a.2 b.2) 0 with h | h | h
  · left; left; exact h
  · rcases Nat.le_total a.1 b.1 with hi | hi
    · left; right; exact ⟨h, hi⟩
    · right; right; exact ⟨by omega, hi⟩
  · right; left; omega

/-- Claim C9: within each round the candidate list handed to the greedy selection
loop is sorted by the three-key descending comparison — bye score, then
combined remaining need, then maximum single-player remaining need — with
ties kept in original candidate order (stability), and it is a permutation
of the filtered candidates.  The index-tagged sorted list witnesses the
stable order; `sortCandidates` (its projection) is exactly what `tryBuild`
iterates over. -/
theorem claim_C9_candidate_order (st : BuildSt) (r t : Nat) (cands : List Cand) :
    (sortCandidates st r t cands).Perm cands ∧
    sortCandidates st r t cands =
      (List.insertionSort (candRel st r t) cands.enum).map Prod.snd ∧
    List.Pairwise
      (fun a b : Nat × Cand =>
        candByeScore st.lp r b.2 < candByeScore st.lp r a.2 ∨
        (candByeScore st.lp r b.2 = candByeScore st.lp r a.2 ∧
          (candNeed st.gp t b.2 < candNeed st.gp t a.2 ∨
            (candNeed st.gp t b.2 = candNeed st.gp t a.2 ∧
              (candMaxNeed st.gp t b.2 < candMaxNeed st.gp t a.2 ∨
                (candMaxNeed st.gp t b.2 = candMaxNeed st.gp t a.2 ∧ a.1 ≤ b.1))))))
      (List.insertionSort (candRel st r t) cands.enum) := by
  refine ⟨sortCandidates_perm st r t cands, rfl, ?_⟩
  haveI : IsTrans (Nat × Cand) (candRel st r t) := ⟨candRel_trans st r t⟩
  haveI : IsTotal (Nat × Cand) (candRel st r t) := ⟨candRel_total st r t⟩
  have hs := List.sorted_insertionSort (candRel st r t) cands.enum
  refine List.Pairwise.imp ?_ hs
  intro a b hab
  unfold candRel at hab
  rw [candLE_true_iff] at hab
  rw [cmpCand_neg_iff, cmpCand_eq_zero_iff] at hab
  rcases hab with h | h
  · rcases h with h | ⟨h1, h⟩
    · exact Or.inl h
    · rcases h with h | ⟨h2, h3⟩
      · exact Or.inr ⟨h1, Or.inl h⟩
      · exact Or.inr ⟨h1, Or.inr ⟨h2, Or.inl h3⟩⟩
  · exact Or.inr ⟨h.1.1, Or.inr ⟨h.1.2.1, Or.inr ⟨h.1.2.2, h.2⟩⟩⟩

/-- Witness for C3 on the concrete one-round result of the builder. -/
theorem claim_C3_witness :
    List.Pairwise disjointPlayers
      [({ round := 1, board := 1, A := "P1", B := "P2", group := 1 } : SMatch)] ∧
    [({ round := 1, board := 1, A := "P1", B := "P2", group := 1 } : SMatch)].length ≤
      coerceMin1 (some 1) ∧
    ∀ (i : Nat)
      (hi : i < [({ round := 1, board := 1, A := "P1", B := "P2", group := 1 } : SMatch)].length),
      ([({ round := 1, board := 1, A := "P1", B := "P2", group := 1 } : SMatch)].get
        ⟨i, hi⟩).board = i + 1 :=
  claim_C3_round_invariants exGR1 (some 1) (some 1)
    [{ round := 1, board := 1, A := "P1", B := "P2", group := 1 }] (by decide)
